import Mathlib

/-!
Verification development for `src/VQLS_CudaQ/vqls.cpp`, a variational
quantum linear solver (VQLS) prototype.  The C++ source is shallowly
embedded below:

* the Pauli-string operator algebra (`to_spin_op`, `mul`) models the
  construction and multiplication of `cudaq::spin_op` values exactly as
  the source uses them (one label per qubit index, standard Pauli
  product phases);
* the kernels `hardware_efficient_ansatz` and the `H^n |0>` reference
  kernel are embedded as gate lists acting on explicit 4-qubit complex
  state vectors, with the standard matrix semantics of `ry`, `h` and
  controlled-`x`;
* `cudaq::observe(kernel, op, args).expectation()` is modelled from the
  spec's ExpectationOracle contract as the real part of `<psi|O|psi>`
  for the state `psi` the kernel prepares;
* the gradient-descent loop of `main` is embedded with the gradient
  left abstract (the source obtains it from `cudaq::gradient`, an
  external collaborator).
-/

open Complex

/-- Global constant `nQubits = 4` (vqls.cpp line 12). -/
def nQubits : ℕ := 4

/-- Global constant `nLayers = 8` (vqls.cpp line 13). -/
def nLayers : ℕ := 8

/-- Single-qubit Pauli labels {I, X, Y, Z}. -/
inductive Pauli
  | I
  | X
  | Y
  | Z
deriving DecidableEq

/-- A Pauli term: one label per qubit index. -/
abbrev PauliTerm := List Pauli

/-- A weighted sum of Pauli terms, as built by `to_spin_op`. -/
abbrev WeightedOperator := List (ℂ × PauliTerm)

/-- Label part of the single-qubit Pauli product (X*Y = Z up to phase, etc.). -/
def pauliMulLabel : Pauli → Pauli → Pauli
  | .I, b => b
  | a, .I => a
  | .X, .X => .I
  | .Y, .Y => .I
  | .Z, .Z => .I
  | .X, .Y => .Z
  | .Y, .X => .Z
  | .Y, .Z => .X
  | .Z, .Y => .X
  | .Z, .X => .Y
  | .X, .Z => .Y

/-- Phase part of the single-qubit Pauli product: same labels give +1,
distinct non-identity labels give the cyclic phases plus or minus i. -/
def pauliMulPhase : Pauli → Pauli → ℂ
  | .I, _ => 1
  | _, .I => 1
  | .X, .X => 1
  | .Y, .Y => 1
  | .Z, .Z => 1
  | .X, .Y => Complex.I
  | .Y, .Z => Complex.I
  | .Z, .X => Complex.I
  | .Y, .X => -Complex.I
  | .Z, .Y => -Complex.I
  | .X, .Z => -Complex.I

/-- Qubit-wise product of two Pauli terms: accumulated phase together
with the product labels.  A missing tail is treated as identity, the
padding convention of `cudaq::spin_op`. -/
def termMul : PauliTerm → PauliTerm → ℂ × PauliTerm
  | [], t => (1, t)
  | a :: s, [] => (1, a :: s)
  | a :: s, b :: t =>
      let r := termMul s t
      (pauliMulPhase a b * r.1, pauliMulLabel a b :: r.2)

/-- Product of two weighted operators (`A * A` in vqls.cpp line 68):
every pair of terms is multiplied qubit-wise, the coefficient being the
product of the input coefficients times the accumulated phase. -/
def mul (P Q : WeightedOperator) : WeightedOperator :=
  P.flatMap fun p =>
    Q.map fun q => (p.1 * q.1 * (termMul p.2 q.2).1, (termMul p.2 q.2).2)

/-- The character-to-label decoding used by `to_spin_op`'s switch
statement; characters outside {I,X,Y,Z} hit the `default:` branch. -/
def charToPauli (c : Char) : Option Pauli :=
  if c = 'I' then some .I
  else if c = 'X' then some .X
  else if c = 'Y' then some .Y
  else if c = 'Z' then some .Z
  else none

/-- Decoding of one label string (the inner loop of `to_spin_op`,
vqls.cpp lines 50-59): builds the term label by label and throws
`std::invalid_argument` on the first character outside {I,X,Y,Z}. -/
def parseTerm : List Char → Except String PauliTerm
  | [] => .ok []
  | c :: cs =>
      match charToPauli c with
      | some p => (parseTerm cs).map (fun t => p :: t)
      | none => .error ("Invalid Pauli character: " ++ String.mk [c])

/-- `to_spin_op` (vqls.cpp lines 46-63): converts a list of
(coefficient, label string) pairs into a weighted operator, throwing on
any invalid character.  No length check of any kind is performed. -/
def to_spin_op : List (ℂ × List Char) → Except String WeightedOperator
  | [] => .ok []
  | (coeff, s) :: rest => do
      let t ← parseTerm s
      let h ← to_spin_op rest
      .ok ((coeff, t) :: h)

/-- The fixed operator specification `matA` (vqls.cpp lines 15-19). -/
noncomputable def matA : List (ℂ × List Char) :=
  [(1, ['I', 'Z', 'Z', 'I']),
   (2, ['Z', 'Z', 'Z', 'Z']),
   (-(1 / 2), ['I', 'I', 'I', 'Z'])]

/-- The weighted operator `A = to_spin_op(matA)` built in `vqls_cost`
(vqls.cpp line 67); the parse of the literal `matA` always succeeds. -/
noncomputable def matA_op : WeightedOperator :=
  match to_spin_op matA with
  | .ok w => w
  | .error _ => []

/-- Whether an `Except` computation succeeded (did not throw). -/
def exceptOk {ε α : Type} : Except ε α → Bool
  | .ok _ => true
  | .error _ => false

theorem matA_op_eq :
    matA_op =
      [(1, [Pauli.I, Pauli.Z, Pauli.Z, Pauli.I]),
       (2, [Pauli.Z, Pauli.Z, Pauli.Z, Pauli.Z]),
       (-(1 / 2), [Pauli.I, Pauli.I, Pauli.I, Pauli.Z])] := by
  rfl

theorem exceptOk_map {ε α β : Type} (f : α → β) (x : Except ε α) :
    exceptOk (x.map f) = exceptOk x := by
  cases x <;> rfl

theorem parseTerm_ok (cs : List Char) :
    exceptOk (parseTerm cs) = cs.all (fun ch => (charToPauli ch).isSome) := by
  induction cs with
  | nil => rfl
  | cons c cs ih =>
      cases h : charToPauli c with
      | some p => simp [parseTerm, h, exceptOk_map, ih]
      | none => simp [parseTerm, h, exceptOk]

theorem to_spin_op_ok (l : List (ℂ × List Char)) :
    exceptOk (to_spin_op l) =
      l.all (fun p => p.2.all (fun ch => (charToPauli ch).isSome)) := by
  induction l with
  | nil => rfl
  | cons p l ih =>
      obtain ⟨coeff, s⟩ := p
      simp only [to_spin_op, List.all_cons, bind, Except.bind]
      cases hp : parseTerm s with
      | error e =>
          have hs := parseTerm_ok s
          rw [hp] at hs
          simp [exceptOk, ← hs]
      | ok t =>
          have hs := parseTerm_ok s
          rw [hp] at hs
          cases hr : to_spin_op l with
          | error e => rw [hr] at ih; simp [exceptOk, ← hs, ← ih]
          | ok w => rw [hr] at ih; simp [exceptOk, ← hs, ← ih]

theorem pauliMulPhase_self (p : Pauli) : pauliMulPhase p p = 1 := by
  cases p <;> rfl

theorem pauliMulLabel_self (p : Pauli) : pauliMulLabel p p = Pauli.I := by
  cases p <;> rfl

theorem termMul_self (ls : PauliTerm) :
    termMul ls ls = (1, List.replicate ls.length Pauli.I) := by
  induction ls with
  | nil => rfl
  | cons p ls ih =>
      simp [termMul, ih, pauliMulPhase_self, pauliMulLabel_self, List.replicate_succ]

/-- C4 (amended): the operator parse `to_spin_op` fails exactly when
some label string contains a character outside {I,X,Y,Z}; the length of
the label strings is not checked at all, so no length condition enters
the failure criterion. -/
theorem operator_parse_fails_iff_bad_char (l : List (ℂ × List Char)) :
    exceptOk (to_spin_op l) = false ↔
      ∃ p ∈ l, ∃ ch ∈ p.2, charToPauli ch = none := by
  rw [to_spin_op_ok]
  simp [List.all_eq_true, Option.isSome_iff_ne_none]

/-- C4 counterexample: the label string "IZZ" has length 3, different
from the declared qubit count `nQubits = 4`, yet `to_spin_op` succeeds
on it, contradicting the claim that the parse fails whenever a label
length differs from the declared qubit count. -/
theorem operator_parse_ignores_length :
    to_spin_op [((1 : ℂ), ['I', 'Z', 'Z'])] =
        Except.ok [((1 : ℂ), [Pauli.I, Pauli.Z, Pauli.Z])] ∧
      ['I', 'Z', 'Z'].length ≠ nQubits := by
  exact ⟨rfl, by decide⟩

/-- C6: multiplying a single-term weighted operator with coefficient
`c` by itself yields the all-identity term with coefficient `c ^ 2`,
the per-qubit phase of a label with itself being `+1`. -/
theorem mul_single_term_self (c : ℂ) (ls : PauliTerm) :
    mul [(c, ls)] [(c, ls)] = [(c ^ 2, List.replicate ls.length Pauli.I)] ∧
      ∀ p ∈ ls, pauliMulPhase p p = 1 := by
  refine ⟨?_, fun p _ => pauliMulPhase_self p⟩
  simp [mul, termMul_self, pow_two]

/-- Optimizer states of the spec's state machine; the plain loop of
`main` has no convergence or failure path, so only Iterating and
Exhausted are reachable. -/
inductive OptState
  | Iterating
  | Converged
  | Exhausted
  | Failed
deriving DecidableEq

/-- One cost record per optimizer iteration: iteration index, parameter
snapshot after the update, and the cost printed at vqls.cpp line 96. -/
structure CostSample where
  iter : ℕ
  params : List ℝ
  cost : ℝ

/-- One gradient-descent update (vqls.cpp lines 92-94): the gradient is
evaluated once at the pre-update parameters, then every component is
updated in place as `theta[i] -= 0.1 * grad[i]`. -/
def gdStep (g : List ℝ → List ℝ) (theta : List ℝ) : List ℝ :=
  let grad := g theta
  theta.mapIdx fun i t => t - 0.1 * grad.getD i 0

/-- The optimization loop of `main` (vqls.cpp lines 91-97), generalized
over the iteration bound `m` (the source fixes `m = 50`) and the
iteration counter `k`.  Returns the final parameters, the recorded cost
samples, and the terminal optimizer state. -/
def optLoop (g : List ℝ → List ℝ) (cost : List ℝ → ℝ) :
    ℕ → ℕ → List ℝ → List ℝ × List CostSample × OptState
  | 0, _, theta => (theta, [], .Exhausted)
  | m + 1, k, theta =>
      let tNext := gdStep g theta
      let sample : CostSample := ⟨k, tNext, cost tNext⟩
      let rest := optLoop g cost m (k + 1) tNext
      (rest.1, sample :: rest.2.1, rest.2.2)

/-- The initial parameter vector of `main` (vqls.cpp line 86): all-zero
of length `nQubits * nLayers`. -/
def theta0 : List ℝ := List.replicate (nQubits * nLayers) 0

theorem optLoop_spec (g : List ℝ → List ℝ) (cost : List ℝ → ℝ) :
    ∀ (m k : ℕ) (theta : List ℝ),
      (optLoop g cost m k theta).1 = (gdStep g)^[m] theta ∧
        (optLoop g cost m k theta).2.1.length = m ∧
        (optLoop g cost m k theta).2.2 = .Exhausted := by
  intro m
  induction m with
  | zero => intro k theta; exact ⟨rfl, rfl, rfl⟩
  | succ m ih =>
      intro k theta
      obtain ⟨h1, h2, h3⟩ := ih (k + 1) (gdStep g theta)
      refine ⟨?_, ?_, ?_⟩
      · rw [Function.iterate_succ_apply]
        exact h1
      · simpa [optLoop] using h2
      · exact h3

/-- C7: the loop of `main` performs exactly 50 iterations (the
configured maximum) and then stops in the Exhausted state; each
iteration replaces theta by `gdStep g theta`, which subtracts
`0.1 * grad[i]` (the fixed learning rate times the gradient component
computed at the pre-update theta) from every component `theta[i]`. -/
theorem optimizer_iterates_fixed_count (g : List ℝ → List ℝ)
    (cost : List ℝ → ℝ) (theta : List ℝ) :
    (optLoop g cost 50 0 theta).1 = (gdStep g)^[50] theta ∧
      (optLoop g cost 50 0 theta).2.1.length = 50 ∧
      (optLoop g cost 50 0 theta).2.2 = .Exhausted ∧
      ∀ t : List ℝ, gdStep g t = t.mapIdx fun i x => x - 0.1 * (g t).getD i 0 := by
  obtain ⟨h1, h2, h3⟩ := optLoop_spec g cost 50 0 theta
  exact ⟨h1, h2, h3, fun t => rfl⟩

/-- C8: with an iteration bound of zero the optimizer returns at once
in the Exhausted state, with the initial parameters unchanged and an
empty cost-sample history. -/
theorem optimizer_zero_iterations (g : List ℝ → List ℝ)
    (cost : List ℝ → ℝ) (theta : List ℝ) :
    optLoop g cost 0 0 theta = (theta, [], .Exhausted) := rfl

/-- Basis index of a 4-qubit register: one bit per qubit 0..3. -/
abbrev B4 := Bool × Bool × Bool × Bool

/-- A 4-qubit state vector: a complex amplitude per basis element. -/
abbrev QState := B4 → ℂ

/-- Bit of qubit `q` in a basis element. -/
def getB (q : ℕ) (z : B4) : Bool :=
  match q with
  | 0 => z.1
  | 1 => z.2.1
  | 2 => z.2.2.1
  | _ => z.2.2.2

/-- Basis element with the bit of qubit `q` replaced. -/
def setB (q : ℕ) (b : Bool) (z : B4) : B4 :=
  match q with
  | 0 => (b, z.2.1, z.2.2.1, z.2.2.2)
  | 1 => (z.1, b, z.2.2.1, z.2.2.2)
  | 2 => (z.1, z.2.1, b, z.2.2.2)
  | _ => (z.1, z.2.1, z.2.2.1, b)

/-- Application of a single-qubit gate with matrix `M` (entries indexed
row, column by the qubit bit) on qubit `q`. -/
noncomputable def apply1 (q : ℕ) (M : Bool → Bool → ℂ) (ψ : QState) : QState :=
  fun z =>
    M (getB q z) false * ψ (setB q false z) +
      M (getB q z) true * ψ (setB q true z)

/-- Matrix of the `ry` rotation gate used by the ansatz. -/
noncomputable def ryMat (t : ℝ) : Bool → Bool → ℂ
  | false, false => (Real.cos (t / 2) : ℝ)
  | false, true => -((Real.sin (t / 2) : ℝ) : ℂ)
  | true, false => (Real.sin (t / 2) : ℝ)
  | true, true => (Real.cos (t / 2) : ℝ)

/-- Matrix of the Hadamard gate `h`. -/
noncomputable def hMat : Bool → Bool → ℂ
  | false, false => ((Real.sqrt 2 : ℝ) : ℂ)⁻¹
  | false, true => ((Real.sqrt 2 : ℝ) : ℂ)⁻¹
  | true, false => ((Real.sqrt 2 : ℝ) : ℂ)⁻¹
  | true, true => -((Real.sqrt 2 : ℝ) : ℂ)⁻¹

/-- Controlled-`x` with control qubit `c` and target qubit `t`
(`x<cudaq::ctrl>(q[c], q[t])`): the amplitude at `z` comes from the
basis element with the target bit xor-ed with the control bit. -/
def cnotGate (c t : ℕ) (ψ : QState) : QState :=
  fun z => ψ (setB t (xor (getB t z) (getB c z)) z)

/-- One operation of the ansatz kernel body: a `ry` rotation reading
parameter index `idx`, or a controlled-`x`. -/
inductive GateOp
  | ry (idx : ℕ) (q : ℕ)
  | cnot (c t : ℕ)
deriving DecidableEq

/-- The inner-loop start indices `j` of the ansatz
(`for (int j = 0; j < nQubits - 1; j += 2)`). -/
def pairStarts : List ℕ :=
  (List.range (nQubits - 1)).filter fun j => j % 2 == 0

/-- Body of one inner-loop pass of `hardware_efficient_ansatz`
(vqls.cpp lines 27-31): two `ry` reads at consecutive parameter
indices followed by a controlled-`x`, threading the counter `idx`. -/
def pairOps (acc : ℕ × List GateOp) (j : ℕ) : ℕ × List GateOp :=
  (acc.1 + 2,
    acc.2 ++ [GateOp.ry acc.1 j, GateOp.ry (acc.1 + 1) (j + 1), GateOp.cnot (j + 1) j])

/-- The full gate sequence of `hardware_efficient_ansatz` (vqls.cpp
lines 22-34): `nLayers` passes of the inner loop, with the parameter
counter `idx` starting at 0 and threaded through. -/
def ansatzOps : List GateOp :=
  ((((List.range nLayers).flatMap fun _ => pairStarts)).foldl pairOps (0, [])).2

/-- Application of one ansatz operation to a state, reading rotation
angles from the parameter vector `theta`. -/
noncomputable def applyGate (theta : List ℝ) (ψ : QState) : GateOp → QState
  | .ry idx q => apply1 q (ryMat (theta.getD idx 0)) ψ
  | .cnot c t => cnotGate c t ψ

/-- The all-zeros computational basis state the `cudaq::qvector`
allocation starts from. -/
def ket0 : QState := fun z => if z = (false, false, false, false) then 1 else 0

/-- The state prepared by `hardware_efficient_ansatz` on parameters
`theta`. -/
noncomputable def ansatz_state (theta : List ℝ) : QState :=
  ansatzOps.foldl (applyGate theta) ket0

/-- The parameter indices read by the ansatz, in read order. -/
def readIndices : List ℕ :=
  ansatzOps.filterMap fun op =>
    match op with
    | .ry idx _ => some idx
    | .cnot _ _ => none

/-- C10: on a parameter vector with at least `nQubits * nLayers = 32`
entries the ansatz reads exactly the indices 0..31, each once, in
increasing order (`2 * (nQubits / 2)` reads per layer over `nLayers`
layers), and every read index is within bounds. -/
theorem ansatz_reads_in_bounds (theta : List ℝ)
    (h : nQubits * nLayers ≤ theta.length) :
    readIndices = List.range (nQubits * nLayers) ∧
      readIndices.length = nLayers * (2 * (nQubits / 2)) ∧
      ∀ i ∈ readIndices, i < theta.length := by
  refine ⟨by decide, by decide, fun i hi => ?_⟩
  have hlt : i < nQubits * nLayers := by
    have : readIndices = List.range (nQubits * nLayers) := by decide
    rw [this, List.mem_range] at hi
    exact hi
  exact lt_of_lt_of_le hlt h

/-- C10 witness: the concrete all-zero parameter vector of `main` has
exactly 32 entries, and the read-index bound holds for it. -/
theorem ansatz_reads_in_bounds_witness :
    readIndices = List.range (nQubits * nLayers) ∧
      readIndices.length = nLayers * (2 * (nQubits / 2)) ∧
      ∀ i ∈ readIndices, i < (List.replicate 32 (0 : ℝ)).length :=
  ansatz_reads_in_bounds (List.replicate 32 (0 : ℝ)) (by simp [nQubits, nLayers])

/-- The reference state `|b> = H^n |0>` prepared by the kernel passed
to the second `cudaq::observe` call (vqls.cpp lines 75-78, the body of
`state_b_kernel`): a Hadamard on every qubit of `|0>`. -/
noncomputable def state_b : QState :=
  (List.range nQubits).foldl (fun ψ i => apply1 i hMat ψ) ket0

/-- Action of a single Pauli label on qubit `q` of a state. -/
noncomputable def applyPauli1 (q : ℕ) (p : Pauli) (ψ : QState) : QState :=
  match p with
  | .I => ψ
  | .X => fun z => ψ (setB q (!getB q z) z)
  | .Y => fun z =>
      (if getB q z then Complex.I else -Complex.I) * ψ (setB q (!getB q z) z)
  | .Z => fun z => (if getB q z then -1 else 1) * ψ z

/-- Action of a Pauli term whose first label sits on qubit `q`. -/
noncomputable def applyTermFrom (q : ℕ) : PauliTerm → QState → QState
  | [], ψ => ψ
  | p :: ps, ψ => applyPauli1 q p (applyTermFrom (q + 1) ps ψ)

/-- Action of a weighted operator on a state: the coefficient-weighted
sum of the actions of its Pauli terms. -/
noncomputable def applyOp (W : WeightedOperator) (ψ : QState) : QState :=
  W.foldr (fun t acc => fun z => t.1 * applyTermFrom 0 t.2 ψ z + acc z) fun _ => 0

/-- Modelled from the spec: the ExpectationOracle contract realized by
`cudaq::observe(kernel, op, ...).expectation()` — the real part of
`<psi|O|psi>` for the state `psi` the kernel prepares. -/
noncomputable def expval (W : WeightedOperator) (ψ : QState) : ℝ :=
  (∑ z : B4, (starRingEnd ℂ) (ψ z) * applyOp W ψ z).re

/-- The operator `AdgA = A * A` built in `vqls_cost` (vqls.cpp line 68). -/
noncomputable def AdgA : WeightedOperator := mul matA_op matA_op

/-- `vqls_cost` (vqls.cpp lines 66-83): `denom` is the expectation of
`A * A` on the ansatz state at `theta`, `numer` the expectation of `A`
on the reference state `|b>`; the cost is `denom - 2 * numer + 1`. -/
noncomputable def vqls_cost (theta : List ℝ) : ℝ :=
  let denom := expval AdgA (ansatz_state theta)
  let numer := expval matA_op state_b
  denom - 2 * numer + 1

/-- `vqls_cost` with the hard-coded operator specification `matA`
replaced by an arbitrary one, mirroring the body of `vqls_cost`
statement by statement; the only failure path is the parse throw inside
`to_spin_op`. -/
noncomputable def vqls_cost_with (mat : List (ℂ × List Char))
    (theta : List ℝ) : Except String ℝ := do
  let A ← to_spin_op mat
  let AA := mul A A
  let denom := expval AA (ansatz_state theta)
  let numer := expval A state_b
  .ok (denom - 2 * numer + 1)

/-- C1: for every parameter vector, the cost returned by `vqls_cost`
is exactly the oracle expectation of `multiply(A, A)` on the ansatz
state at `theta`, minus twice the (real) oracle expectation of `A` on
the reference state, plus one. -/
theorem vqls_cost_formula (theta : List ℝ) :
    vqls_cost theta =
      expval (mul matA_op matA_op) (ansatz_state theta) -
        2 * expval matA_op state_b + 1 := rfl

/-- C1 witness: the formula instantiated at the initial all-zero
parameter vector of `main`. -/
theorem vqls_cost_formula_witness :
    vqls_cost (List.replicate 32 0) =
      expval (mul matA_op matA_op) (ansatz_state (List.replicate 32 0)) -
        2 * expval matA_op state_b + 1 :=
  vqls_cost_formula (List.replicate 32 0)

/-- C9: the reference-state contribution to the cost does not depend
on the parameter vector — the difference of the costs at any two
parameter vectors equals the difference of the `A * A` expectations on
the two ansatz states, the reference term cancelling exactly. -/
theorem vqls_cost_reference_term_constant (t1 t2 : List ℝ) :
    vqls_cost t1 - vqls_cost t2 =
      expval AdgA (ansatz_state t1) - expval AdgA (ansatz_state t2) := by
  simp only [vqls_cost]
  ring

/-- C5 counterexample: with an operator whose term length 3 differs
from the ansatz qubit count `nQubits = 4`, the cost evaluation does not
fail at all — no `OperatorShapeError` exists in the code. -/
theorem vqls_cost_no_shape_check :
    exceptOk (vqls_cost_with [((1 : ℂ), ['I', 'Z', 'Z'])] (List.replicate 32 0)) = true ∧
      ['I', 'Z', 'Z'].length ≠ nQubits := by
  exact ⟨rfl, by decide⟩

/-- C5 (amended): the cost evaluation fails exactly when the operator
parse `to_spin_op` fails (an invalid Pauli character); the length of
the operator's terms is never compared with the ansatz qubit count. -/
theorem vqls_cost_fails_iff_parse_fails (mat : List (ℂ × List Char))
    (theta : List ℝ) :
    exceptOk (vqls_cost_with mat theta) = exceptOk (to_spin_op mat) := by
  cases h : to_spin_op mat <;>
    simp [vqls_cost_with, h, bind, Except.bind, exceptOk]

theorem sqrt2C_sq :
    ((Real.sqrt 2 : ℝ) : ℂ) * ((Real.sqrt 2 : ℝ) : ℂ) = 2 := by
  rw [← Complex.ofReal_mul]
  norm_num [Real.mul_self_sqrt]

theorem state_b_eq : state_b = fun _ => (4 : ℂ)⁻¹ := by
  have h2 : ((Real.sqrt 2 : ℝ) : ℂ)⁻¹ * ((Real.sqrt 2 : ℝ) : ℂ)⁻¹ = (2 : ℂ)⁻¹ := by
    rw [← mul_inv, sqrt2C_sq]
  funext z
  obtain ⟨b0, b1, b2, b3⟩ := z
  show (apply1 3 hMat (apply1 2 hMat (apply1 1 hMat (apply1 0 hMat ket0)))) (b0, b1, b2, b3) = _
  cases b0 <;> cases b1 <;> cases b2 <;> cases b3 <;>
    · simp only [apply1, hMat, getB, setB, ket0, if_pos, if_neg, reduceIte]
      norm_num [h2]
      rw [← mul_assoc, h2]
      norm_num

/-- Sign picked up by a Pauli Z on a qubit in basis bit `b`. -/
def zsgn (b : Bool) : ℝ := if b then -1 else 1

/-- Diagonal entries of the operator `A = to_spin_op(matA)`: the
eigenvalue of `IZZI + 2 ZZZZ - 0.5 IIIZ` on each basis element. -/
noncomputable def matDiagR (z : B4) : ℝ :=
  zsgn z.2.1 * zsgn z.2.2.1 +
    2 * (zsgn z.1 * zsgn z.2.1 * zsgn z.2.2.1 * zsgn z.2.2.2) -
    1 / 2 * zsgn z.2.2.2

theorem applyOp_matA (ψ : QState) :
    applyOp matA_op ψ = fun z => ((matDiagR z : ℝ) : ℂ) * ψ z := by
  rw [matA_op_eq]
  funext z
  obtain ⟨b0, b1, b2, b3⟩ := z
  cases b0 <;> cases b1 <;> cases b2 <;> cases b3 <;>
    · simp only [applyOp, applyTermFrom, applyPauli1, getB, setB, matDiagR, zsgn,
        List.foldr, reduceIte]
      push_cast
      ring

theorem applyOp_AdgA (ψ : QState) :
    applyOp AdgA ψ = fun z => ((matDiagR z ^ 2 : ℝ) : ℂ) * ψ z := by
  have hA : AdgA =
      mul [(1, [Pauli.I, Pauli.Z, Pauli.Z, Pauli.I]),
           (2, [Pauli.Z, Pauli.Z, Pauli.Z, Pauli.Z]),
           (-(1 / 2), [Pauli.I, Pauli.I, Pauli.I, Pauli.Z])]
          [(1, [Pauli.I, Pauli.Z, Pauli.Z, Pauli.I]),
           (2, [Pauli.Z, Pauli.Z, Pauli.Z, Pauli.Z]),
           (-(1 / 2), [Pauli.I, Pauli.I, Pauli.I, Pauli.Z])] := by
    rw [AdgA, matA_op_eq]
  rw [hA]
  funext z
  obtain ⟨b0, b1, b2, b3⟩ := z
  cases b0 <;> cases b1 <;> cases b2 <;> cases b3 <;>
    · simp only [mul, termMul, pauliMulLabel, pauliMulPhase, List.flatMap, List.map,
        List.flatten, List.append_nil, List.cons_append, List.nil_append,
        applyOp, applyTermFrom, applyPauli1, getB, setB, matDiagR, zsgn,
        List.foldr, reduceIte]
      push_cast
      ring

theorem expval_AdgA_nonneg (ψ : QState) : 0 ≤ expval AdgA ψ := by
  rw [expval, applyOp_AdgA, Complex.re_sum]
  refine Finset.sum_nonneg fun z _ => ?_
  have h : (starRingEnd ℂ) (ψ z) * (((matDiagR z ^ 2 : ℝ) : ℂ) * ψ z) =
      ((matDiagR z ^ 2 * Complex.normSq (ψ z) : ℝ) : ℂ) := by
    rw [Complex.ofReal_mul, ← Complex.mul_conj]
    ring
  rw [h, Complex.ofReal_re]
  exact mul_nonneg (sq_nonneg _) (Complex.normSq_nonneg _)

theorem expval_matA_state_b : expval matA_op state_b = 0 := by
  rw [expval, applyOp_matA, state_b_eq]
  simp only [Fintype.sum_prod_type, Fintype.sum_bool, matDiagR, zsgn]
  norm_num

theorem vqls_cost_ge_one (theta : List ℝ) : 1 ≤ vqls_cost theta := by
  have h1 := expval_AdgA_nonneg (ansatz_state theta)
  have h2 := expval_matA_state_b
  simp only [vqls_cost]
  rw [h2]
  linarith

/-- C3: the cost is non-negative for every parameter vector.  In this
configuration the hypotheses of the claim hold (the fixed operator `A`
is a real combination of Z-type Pauli strings, hence Hermitian, and the
states are unit vectors prepared by unitary kernels), and the bound is
proved outright: the reference term vanishes and the `A * A`
expectation is a non-negative quadratic form, so the cost is at least 1. -/
theorem vqls_cost_nonneg (theta : List ℝ) : 0 ≤ vqls_cost theta := by
  have h := vqls_cost_ge_one theta
  linarith

/-- Basis index of a pair of qubits. -/
abbrev B2 := Bool × Bool

/-- A two-qubit state vector. -/
abbrev PState := B2 → ℂ

/-- Tensor product of a state of qubits 0,1 with a state of qubits
2,3. -/
noncomputable def kron (f g : PState) : QState :=
  fun z => f (z.1, z.2.1) * g (z.2.2.1, z.2.2.2)

/-- Single-qubit gate on qubit 0 or 1 of a two-qubit state. -/
noncomputable def apply1p (q : ℕ) (M : Bool → Bool → ℂ) (f : PState) : PState :=
  match q with
  | 0 => fun w => M w.1 false * f (false, w.2) + M w.1 true * f (true, w.2)
  | _ => fun w => M w.2 false * f (w.1, false) + M w.2 true * f (w.1, true)

/-- Controlled-`x` with control on the second qubit of a pair and
target on the first. -/
noncomputable def cnotp (f : PState) : PState :=
  fun w => f (xor w.1 w.2, w.2)

theorem apply1_zero_kron (M : Bool → Bool → ℂ) (f g : PState) :
    apply1 0 M (kron f g) = kron (apply1p 0 M f) g := by
  funext z
  obtain ⟨b0, b1, b2, b3⟩ := z
  simp only [apply1, apply1p, kron, getB, setB]
  ring

theorem apply1_one_kron (M : Bool → Bool → ℂ) (f g : PState) :
    apply1 1 M (kron f g) = kron (apply1p 1 M f) g := by
  funext z
  obtain ⟨b0, b1, b2, b3⟩ := z
  simp only [apply1, apply1p, kron, getB, setB]
  ring

theorem apply1_two_kron (M : Bool → Bool → ℂ) (f g : PState) :
    apply1 2 M (kron f g) = kron f (apply1p 0 M g) := by
  funext z
  obtain ⟨b0, b1, b2, b3⟩ := z
  simp only [apply1, apply1p, kron, getB, setB]
  ring

theorem apply1_three_kron (M : Bool → Bool → ℂ) (f g : PState) :
    apply1 3 M (kron f g) = kron f (apply1p 1 M g) := by
  funext z
  obtain ⟨b0, b1, b2, b3⟩ := z
  simp only [apply1, apply1p, kron, getB, setB]
  ring

theorem cnot_low_kron (f g : PState) :
    cnotGate 1 0 (kron f g) = kron (cnotp f) g := by
  funext z
  obtain ⟨b0, b1, b2, b3⟩ := z
  simp only [cnotGate, cnotp, kron, getB, setB]

theorem cnot_high_kron (f g : PState) :
    cnotGate 3 2 (kron f g) = kron f (cnotp g) := by
  funext z
  obtain ⟨b0, b1, b2, b3⟩ := z
  simp only [cnotGate, cnotp, kron, getB, setB]

/-- Whether an ansatz operation touches only qubits 0 and 1. -/
def leftPairOp : GateOp → Bool
  | .ry _ q => q == 0 || q == 1
  | .cnot c t => c == 1 && t == 0

/-- Whether an ansatz operation touches only qubits 2 and 3. -/
def rightPairOp : GateOp → Bool
  | .ry _ q => q == 2 || q == 3
  | .cnot c t => c == 3 && t == 2

/-- Action of a left-pair operation on the qubit-0,1 factor. -/
noncomputable def applyGateL (theta : List ℝ) (f : PState) : GateOp → PState
  | .ry idx q => apply1p q (ryMat (theta.getD idx 0)) f
  | .cnot _ _ => cnotp f

/-- Action of a right-pair operation on the qubit-2,3 factor. -/
noncomputable def applyGateR (theta : List ℝ) (g : PState) : GateOp → PState
  | .ry idx q => apply1p (q - 2) (ryMat (theta.getD idx 0)) g
  | .cnot _ _ => cnotp g

theorem applyGate_left (theta : List ℝ) (op : GateOp)
    (h : leftPairOp op = true) (f g : PState) :
    applyGate theta (kron f g) op = kron (applyGateL theta f op) g := by
  cases op with
  | ry idx q =>
      simp only [leftPairOp, Bool.or_eq_true, beq_iff_eq] at h
      rcases h with h | h <;> subst h
      · exact apply1_zero_kron _ f g
      · exact apply1_one_kron _ f g
  | cnot c t =>
      simp only [leftPairOp, Bool.and_eq_true, beq_iff_eq] at h
      obtain ⟨hc, ht⟩ := h
      subst hc
      subst ht
      exact cnot_low_kron f g

theorem applyGate_right (theta : List ℝ) (op : GateOp)
    (h : rightPairOp op = true) (f g : PState) :
    applyGate theta (kron f g) op = kron f (applyGateR theta g op) := by
  cases op with
  | ry idx q =>
      simp only [rightPairOp, Bool.or_eq_true, beq_iff_eq] at h
      rcases h with h | h <;> subst h
      · exact apply1_two_kron _ f g
      · exact apply1_three_kron _ f g
  | cnot c t =>
      simp only [rightPairOp, Bool.and_eq_true, beq_iff_eq] at h
      obtain ⟨hc, ht⟩ := h
      subst hc
      subst ht
      exact cnot_high_kron f g

theorem foldl_kron (theta : List ℝ) :
    ∀ ops : List GateOp,
      (∀ op ∈ ops, (leftPairOp op || rightPairOp op) = true) →
      ∀ f g : PState, ∃ f2 g2 : PState,
        ops.foldl (applyGate theta) (kron f g) = kron f2 g2 := by
  intro ops
  induction ops with
  | nil => exact fun _ f g => ⟨f, g, rfl⟩
  | cons op ops ih =>
      intro h f g
      have hop := h op (List.mem_cons_self op ops)
      have hrest : ∀ o ∈ ops, (leftPairOp o || rightPairOp o) = true :=
        fun o ho => h o (List.mem_cons_of_mem op ho)
      cases hL : leftPairOp op with
      | true =>
          rw [List.foldl_cons, applyGate_left theta op hL f g]
          exact ih hrest _ g
      | false =>
          have hR : rightPairOp op = true := by
            rw [hL] at hop
            simpa using hop
          rw [List.foldl_cons, applyGate_right theta op hR f g]
          exact ih hrest f _

/-- The two-qubit all-zeros basis state. -/
def ket0p : PState := fun w => if w = (false, false) then 1 else 0

theorem ket0_kron : ket0 = kron ket0p ket0p := by
  funext z
  obtain ⟨b0, b1, b2, b3⟩ := z
  cases b0 <;> cases b1 <;> cases b2 <;> cases b3 <;> simp [ket0, ket0p, kron]

/-- Every gate of the ansatz acts inside the qubit pair {0,1} or inside
the pair {2,3}: the entangler never couples the two pairs, so the
ansatz state is always a tensor product across that cut. -/
theorem ansatz_state_kron (theta : List ℝ) :
    ∃ f g : PState, ansatz_state theta = kron f g := by
  rw [ansatz_state, ket0_kron]
  exact foldl_kron theta ansatzOps (by decide) ket0p ket0p

/-- The ansatz state at `theta` solves the linear system `A x ∝ b` up
to global phase and normalization: `A ψ(theta)` is a nonzero complex
multiple of the reference state `|b>`. -/
noncomputable def SolvesSystem (theta : List ℝ) : Prop :=
  ∃ c : ℂ, c ≠ 0 ∧
    applyOp matA_op (ansatz_state theta) = fun z => c * state_b z

/-- No parameter vector makes the ansatz solve the system: the ansatz
state always factorizes across the {0,1} | {2,3} cut, while
`A⁻¹ |b>` does not, as witnessed by a 2 x 2 minor of eigenvalues of
`A` that breaks the product condition. -/
theorem ansatz_never_solves (theta : List ℝ) : ¬SolvesSystem theta := by
  rintro ⟨c, hc, heq⟩
  obtain ⟨f, g, hk⟩ := ansatz_state_kron theta
  rw [hk, applyOp_matA, state_b_eq] at heq
  have e1 : (5 / 2 : ℂ) * (f (false, false) * g (false, false)) = c * 4⁻¹ := by
    have h := congrFun heq (false, false, false, false)
    simp only [kron, matDiagR, zsgn, reduceIte] at h
    push_cast at h
    linear_combination h
  have e2 : (3 / 2 : ℂ) * (f (false, false) * g (true, true)) = c * 4⁻¹ := by
    have h := congrFun heq (false, false, true, true)
    simp only [kron, matDiagR, zsgn, reduceIte] at h
    push_cast at h
    linear_combination h
  have e3 : (-(7 / 2) : ℂ) * (f (false, true) * g (false, false)) = c * 4⁻¹ := by
    have h := congrFun heq (false, true, false, false)
    simp only [kron, matDiagR, zsgn, reduceIte] at h
    push_cast at h
    linear_combination h
  have e4 : (-(1 / 2) : ℂ) * (f (false, true) * g (true, true)) = c * 4⁻¹ := by
    have h := congrFun heq (false, true, true, true)
    simp only [kron, matDiagR, zsgn, reduceIte] at h
    push_cast at h
    linear_combination h
  have hc4 : c * 4⁻¹ ≠ 0 := mul_ne_zero hc (by norm_num)
  have hu1 : f (false, false) ≠ 0 := by
    intro h0
    exact hc4 (by rw [← e1, h0]; ring)
  have hu2 : f (false, true) ≠ 0 := by
    intro h0
    exact hc4 (by rw [← e3, h0]; ring)
  have hv1 : g (false, false) ≠ 0 := by
    intro h0
    exact hc4 (by rw [← e1, h0]; ring)
  have h5 : (5 : ℂ) * g (false, false) = 3 * g (true, true) :=
    mul_left_cancel₀ hu1
      (show f (false, false) * ((5 : ℂ) * g (false, false)) =
          f (false, false) * (3 * g (true, true)) by
        linear_combination 2 * e1 - 2 * e2)
  have h7 : (7 : ℂ) * g (false, false) = g (true, true) :=
    mul_left_cancel₀ hu2
      (show f (false, true) * ((7 : ℂ) * g (false, false)) =
          f (false, true) * g (true, true) by
        linear_combination (-2 : ℂ) * e3 + 2 * e4)
  have h16 : (16 : ℂ) * g (false, false) = 0 := by
    linear_combination (-1 : ℂ) * h5 + 3 * h7
  exact hv1 ((mul_eq_zero.mp h16).resolve_left (by norm_num))

/-- C2: for every parameter vector, the cost vanishes exactly when the
ansatz state solves `A x ∝ b` up to global phase and normalization.
Both sides are false for every `theta` in this program: the reference
expectation of `A` on `|b>` is 0, so the cost is at least 1, and the
pair-local entangling pattern keeps the ansatz state a product state
across the {0,1} | {2,3} cut, which the exact solution is not. -/
theorem vqls_cost_zero_iff_solves (theta : List ℝ) :
    vqls_cost theta = 0 ↔ SolvesSystem theta := by
  constructor
  · intro h
    have h1 := vqls_cost_ge_one theta
    linarith
  · intro h
    exact absurd h (ansatz_never_solves theta)
